import Mathlib

/-!
Verification development for the MBTiles tile-storage engine
(`src/mbtiles/src/mbtiles.rs`).

The embedding models the engine's pure logic and its SQL statements as
executable Lean functions.  SQLite table state is modelled as association
lists keyed by the table's unique key; the semantics of
`INSERT <conflict-clause>` is modelled from the spec (§4.4).  The helper
functions that live outside the given sources (`invert_y_value`,
`TileCoord::is_possible_on_zoom_level`, `CopyDuplicateMode::to_sql`, and the
`tiles` / `tiles_with_hash` view definitions of the normalized layout) are
modelled from the spec and marked as such in their doc comments.
-/

deriving instance DecidableEq for Except

namespace Mbt

/-- Tile byte content (`Vec<u8>` in the source). -/
abbrev Bytes := List Nat

/-- A content hash value (`md5_hex` output in the source). -/
abbrev Hash := List Nat

/-- The on-disk key of a tile row: `(zoom_level, tile_column, tile_row)`,
with `tile_row` in the stored TMS convention. -/
abbrev TileKey := Nat × Nat × Nat

/-- `martin_tile_utils::TileCoord`.  Modelled from the spec: zoom/column/row
addressing with `zoom: u8`, `column: u32`, `row: u32`. -/
structure TileCoord where
  z : Nat
  x : Nat
  y : Nat
  deriving DecidableEq, Repr

/-- `MbtType` from the source: the three physical layouts. -/
inductive MbtType where
  | Flat
  | FlatWithHash
  | Normalized (hash_view : Bool)
  deriving DecidableEq, Repr

/-- `CopyDuplicateMode` from the source: resolution policy when a write
collides with an existing coordinate. -/
inductive CopyDuplicateMode where
  | Ignore
  | Override
  | Abort
  deriving DecidableEq, Repr

/-- Errors of the modelled engine (`MbtError` / SQL / panic outcomes). -/
inductive MbtErr where
  | uniqueViolation
  | panicOverflow
  | noSuchTable
  | invalidTileIndex (filepath : String) (z x y : Option Int)
  deriving DecidableEq, Repr

/-- Lookup of the row with the given unique key in an association-list table. -/
def alookup {κ υ : Type} [DecidableEq κ] : List (κ × υ) → κ → Option υ
  | [], _ => none
  | (k, v) :: t, k' => if k' = k then some v else alookup t k'

/-- Replace the value stored at a key (used to model `INSERT OR REPLACE`). -/
def areplace {κ υ : Type} [DecidableEq κ] : List (κ × υ) → κ → υ → List (κ × υ)
  | [], _, _ => []
  | (k, v) :: t, k', v' => if k' = k then (k', v') :: t else (k, v) :: areplace t k' v'

/-- Modelled from the spec (§4.4): semantics of `INSERT <conflict-clause>` into a
table with a unique key.  `Ignore` — existing row wins, new write silently
dropped; `Override` — new write replaces the existing row; `Abort` — the
statement fails with a unique-constraint violation. -/
def sqlInsert {κ υ : Type} [DecidableEq κ] (dup : CopyDuplicateMode)
    (tbl : List (κ × υ)) (k : κ) (v : υ) : Except MbtErr (List (κ × υ)) :=
  match alookup tbl k with
  | none => .ok (tbl ++ [(k, v)])
  | some _ =>
    match dup with
    | .Ignore => .ok tbl
    | .Override => .ok (areplace tbl k v)
    | .Abort => .error .uniqueViolation

/-- The physical state of one MBTiles container, per schema variant.
`flat`: the `tiles` table, `tile_data` nullable.
`flatWithHash`: the `tiles_with_hash` table rows `(tile_data, tile_hash)`.
`normalized`: the `map` (coordinate → tile_id) and `images`
(tile_id → tile_data) tables. -/
inductive DbState where
  | flat (tiles : List (TileKey × Option Bytes))
  | flatWithHash (tiles_with_hash : List (TileKey × (Option Bytes × Hash)))
  | normalized (map : List (TileKey × Hash)) (images : List (Hash × Bytes))
  deriving DecidableEq, Repr

/-- An empty container of the given variant. -/
def emptyDb : MbtType → DbState
  | .Flat => .flat []
  | .FlatWithHash => .flatWithHash []
  | .Normalized _ => .normalized [] []

/-- The `tiles` relation each variant exposes.  For `Flat` it is the base
table; for the other variants it is a view.  Modelled from the spec (§6):
"a `tiles`-equivalent table (in one of the three variants)"; for
`Normalized` the view joins `map` and `images` on `tile_id`. -/
def tilesData (db : DbState) (k : TileKey) : Option (Option Bytes) :=
  match db with
  | .flat t => alookup t k
  | .flatWithHash t => (alookup t k).map Prod.fst
  | .normalized m i => (alookup m k).bind (fun h => (alookup i h).map (fun d => some d))

/-- `invert_y_value(zoom, y) = (1 << zoom) - 1 - y`.  Modelled from the spec
(§3, §4.1): pure arithmetic `invert(z, y) = (2^z - 1) - y`, defined only for
`y ≤ 2^z - 1`; the source comment in `parse_tile_index` notes that inverting
a `y` greater than `(1 << z) - 1` can panic, which the model renders as
`none`. -/
def invert_y_value (z y : Nat) : Option Nat :=
  if y ≤ 2 ^ z - 1 then some (2 ^ z - 1 - y) else none

/-- `Mbtiles::get_tile` (source lines 278–297): invert the caller's row, query
`tiles`, and return `Ok(Some(data))` only when a row exists and its
`tile_data` is non-NULL. -/
def get_tile (db : DbState) (z x y : Nat) : Except MbtErr (Option Bytes) :=
  match invert_y_value z y with
  | none => .error .panicOverflow
  | some ty =>
    match tilesData db (z, x, ty) with
    | none => .ok none
    | some none => .ok none
    | some (some d) => .ok (some d)

/-- The `tiles_with_hash` view over the normalized layout.  Modelled from the
spec (§4.2): a denormalized hash-bearing view joining the index table and the
content table, exposing the content id as `tile_hash`. -/
def tiles_with_hash_view (m : List (TileKey × Hash)) (i : List (Hash × Bytes))
    (k : TileKey) : Option (Option Bytes × Option Hash) :=
  match alookup m k with
  | none => none
  | some h => (alookup i h).map (fun d => (some d, some h))

/-- The explicit join of `get_tile_and_hash_sql (Normalized hash_view: false)`
(source line 338): `FROM map JOIN images ON map.tile_id = images.tile_id`,
returning `images.tile_data` and `images.tile_id AS tile_hash`. -/
def map_join_images (m : List (TileKey × Hash)) (i : List (Hash × Bytes))
    (k : TileKey) : Option (Option Bytes × Option Hash) :=
  (alookup m k).bind (fun h => (alookup i h).map (fun d => (some d, some h)))

/-- `Mbtiles::get_tile_and_hash` (source lines 304–324), with the per-variant
statement of `get_tile_and_hash_sql` interpreted against the container state.
Calling it with a variant that does not match the container state is a
missing-table error. -/
def get_tile_and_hash (mbt : MbtType) (db : DbState) (z x y : Nat) :
    Except MbtErr (Option (Option Bytes × Option Hash)) :=
  match invert_y_value z y with
  | none => .error .panicOverflow
  | some ty =>
    match mbt, db with
    | .Flat, .flat t => .ok ((alookup t (z, x, ty)).map (fun d => (d, none)))
    | .FlatWithHash, .flatWithHash t =>
        .ok ((alookup t (z, x, ty)).map (fun p => (p.1, some p.2)))
    | .Normalized true, .normalized m i => .ok (tiles_with_hash_view m i (z, x, ty))
    | .Normalized false, .normalized m i => .ok (map_join_images m i (z, x, ty))
    | _, _ => .error .noSuchTable

/-- `CopyDuplicateMode::to_sql`.  Modelled from the spec (§4.4): the SQL
conflict clause corresponding to each duplicate mode. -/
def CopyDuplicateMode.to_sql : CopyDuplicateMode → String
  | .Ignore => "OR IGNORE"
  | .Override => "OR REPLACE"
  | .Abort => "OR ABORT"

/-- `Mbtiles::get_tile_and_hash_sql` (source lines 329–341), string level. -/
def get_tile_and_hash_sql (mbt : MbtType) : String :=
  match mbt with
  | .Flat =>
      "SELECT tile_data, NULL as tile_hash from tiles where zoom_level = ? AND tile_column = ? AND tile_row = ?"
  | .FlatWithHash | .Normalized true =>
      "SELECT tile_data, tile_hash from tiles_with_hash where zoom_level = ? AND tile_column = ? AND tile_row = ?"
  | .Normalized false =>
      "SELECT images.tile_data, images.tile_id AS tile_hash FROM map JOIN images ON map.tile_id = images.tile_id  where map.zoom_level = ? AND map.tile_column = ? AND map.tile_row = ?"

/-- `Mbtiles::get_insert_sql` (source lines 398–433), string level: the index
statement and, for `Normalized` only, the secondary content statement. -/
def get_insert_sql (src_type : MbtType) (on_duplicate : CopyDuplicateMode) :
    String × Option String :=
  match src_type with
  | .Flat =>
      ("INSERT " ++ on_duplicate.to_sql ++
        " INTO tiles (zoom_level, tile_column, tile_row, tile_data) VALUES (?1, ?2, ?3, ?4);",
        none)
  | .FlatWithHash =>
      ("INSERT " ++ on_duplicate.to_sql ++
        " INTO tiles_with_hash (zoom_level, tile_column, tile_row, tile_data, tile_hash) VALUES (?1, ?2, ?3, ?4, md5_hex(?4));",
        none)
  | .Normalized _ =>
      ("INSERT " ++ on_duplicate.to_sql ++
        " INTO map (zoom_level, tile_column, tile_row, tile_id) VALUES (?1, ?2, ?3, md5_hex(?4));",
        some ("INSERT " ++ on_duplicate.to_sql ++
          " INTO images (tile_id, tile_data) VALUES (md5_hex(?1), ?1);"))

/-- One record of an `insert_tiles` batch: `(z, x, y, tile_data)` with `y`
in the caller's XYZ convention. -/
abbrev Record := Nat × Nat × Nat × Bytes

/-- The parameters bound to the index write statement for one record
(source lines 384–392): the row value is the checked TMS inversion of the
caller's XYZ row, computed immediately before binding. -/
def bound_index_params (r : Record) : Option (Nat × Nat × Nat × Bytes) :=
  match r with
  | (z, x, y, d) => (invert_y_value z y).map (fun ty => (z, x, ty, d))

/-- Execution of the secondary content statement of `get_insert_sql`
(`INSERT <dup> INTO images (tile_id, tile_data) VALUES (md5_hex(?1), ?1)`),
with the content hash supplied as a function parameter. -/
def execContentInsert (hash : Bytes → Hash) (dup : CopyDuplicateMode)
    (i : List (Hash × Bytes)) (d : Bytes) : Except MbtErr (List (Hash × Bytes)) :=
  sqlInsert dup i (hash d) d

/-- Execution of the index write statement of `get_insert_sql` against the
container state, per variant: `tiles` for `Flat`, `tiles_with_hash` (with
`md5_hex(?4)` as `tile_hash`) for `FlatWithHash`, `map` (with `md5_hex(?4)`
as `tile_id`) for `Normalized`. -/
def execIndexInsert (hash : Bytes → Hash) (mbt : MbtType) (dup : CopyDuplicateMode)
    (db : DbState) (z x ty : Nat) (d : Bytes) : Except MbtErr DbState :=
  match mbt, db with
  | .Flat, .flat t => (sqlInsert dup t (z, x, ty) (some d)).map DbState.flat
  | .FlatWithHash, .flatWithHash t =>
      (sqlInsert dup t (z, x, ty) (some d, hash d)).map DbState.flatWithHash
  | .Normalized _, .normalized m i =>
      (sqlInsert dup m (z, x, ty) (hash d)).map (fun m' => DbState.normalized m' i)
  | _, _ => .error .noSuchTable

/-- The `sql2` loop of `insert_tiles` (source lines 377–382): the content
statement executed once per record, in batch order, stopping at the first
error. -/
def runContentLoop (hash : Bytes → Hash) (dup : CopyDuplicateMode) :
    List Record → List (Hash × Bytes) → Except MbtErr (List (Hash × Bytes))
  | [], i => .ok i
  | (_, _, _, d) :: rest, i =>
    match execContentInsert hash dup i d with
    | .ok i' => runContentLoop hash dup rest i'
    | .error e => .error e

/-- The `sql1` loop of `insert_tiles` (source lines 384–393): per record, the
row value is inverted (which can panic on an out-of-range row) and the index
statement is executed, in batch order, stopping at the first error. -/
def runIndexLoop (hash : Bytes → Hash) (mbt : MbtType) (dup : CopyDuplicateMode) :
    List Record → DbState → Except MbtErr DbState
  | [], db => .ok db
  | r :: rest, db =>
    match bound_index_params r with
    | none => .error .panicOverflow
    | some (z, x, ty, d) =>
      match execIndexInsert hash mbt dup db z x ty d with
      | .ok db' => runIndexLoop hash mbt dup rest db'
      | .error e => .error e

/-- The work done inside the transaction of `Mbtiles::insert_tiles` (source
lines 375–393): for `Normalized`, the content loop runs first, then the index
loop; for the flat variants only the index loop runs. -/
def insert_tiles_tx (hash : Bytes → Hash) (mbt : MbtType) (dup : CopyDuplicateMode)
    (db : DbState) (batch : List Record) : Except MbtErr DbState :=
  match mbt, db with
  | .Normalized _, .normalized m i =>
    (match runContentLoop hash dup batch i with
     | .ok i' => runIndexLoop hash mbt dup batch (.normalized m i')
     | .error e => .error e)
  | .Normalized _, _ => .error .noSuchTable
  | _, _ => runIndexLoop hash mbt dup batch db

/-- `Mbtiles::insert_tiles` (source lines 364–396), observable semantics: the
batch runs inside one transaction opened by `conn.begin()`; on success the
transaction is committed and the new state is observable, on any error the
transaction is dropped and rolled back, so the observable state is exactly
the state before the call, paired with the error. -/
def insert_tiles (hash : Bytes → Hash) (mbt : MbtType) (dup : CopyDuplicateMode)
    (db : DbState) (batch : List Record) : DbState × Option MbtErr :=
  match insert_tiles_tx hash mbt dup db batch with
  | .ok db' => (db', none)
  | .error e => (db, some e)

/-- `i64 → u8` narrowing (`try_into().ok()` in the source). -/
def int_to_u8 (n : Int) : Option Nat :=
  if 0 ≤ n ∧ n < 256 then some n.toNat else none

/-- `i64 → u32` narrowing (`try_into().ok()` in the source). -/
def int_to_u32 (n : Int) : Option Nat :=
  if 0 ≤ n ∧ n < 4294967296 then some n.toNat else none

/-- `TileCoord::is_possible_on_zoom_level`.  Modelled from the spec (§3):
`column` and `row` must each lie in `[0, 2^zoom - 1]`. -/
def is_possible_on_zoom_level (z x y : Nat) : Bool :=
  decide (x ≤ 2 ^ z - 1) && decide (y ≤ 2 ^ z - 1)

/-- `parse_tile_index` (source lines 448–457): narrow each nullable wide
integer, validate the pair on the zoom level, and only then build the
coordinate with the inverted row. -/
def parse_tile_index (z x y : Option Int) : Option TileCoord :=
  (z.bind int_to_u8).bind (fun zn =>
  (x.bind int_to_u32).bind (fun xn =>
  (y.bind int_to_u32).bind (fun yn =>
    if is_possible_on_zoom_level zn xn yn then
      (invert_y_value zn yn).map (fun ty => TileCoord.mk zn xn ty)
    else none)))

/-- A raw stored row as `stream_coords` selects it:
`(zoom_level, tile_column, tile_row)`, each nullable. -/
abbrev CoordRow := Option Int × Option Int × Option Int

/-- A raw stored row as `stream_tiles` selects it:
`(zoom_level, tile_column, tile_row, tile_data)`, each nullable. -/
abbrev TileRow := Option Int × Option Int × Option Int × Option Bytes

/-- `Mbtiles::stream_coords` (source lines 197–231): each fetched row is
decoded through `parse_tile_index`; a failing row yields an
`InvalidTileIndex` error item at its position. -/
def stream_coords (filepath : String) (rows : List CoordRow) :
    List (Except MbtErr TileCoord) :=
  rows.map (fun r =>
    match parse_tile_index r.1 r.2.1 r.2.2 with
    | some c => .ok c
    | none => .error (.invalidTileIndex filepath r.1 r.2.1 r.2.2))

/-- `Mbtiles::stream_tiles` (source lines 244–273): like `stream_coords`, but
each successful item also carries the row's `tile_data`. -/
def stream_tiles (filepath : String) (rows : List TileRow) :
    List (Except MbtErr (TileCoord × Option Bytes)) :=
  rows.map (fun r =>
    match parse_tile_index r.1 r.2.1 r.2.2.1 with
    | some c => .ok (c, r.2.2.2)
    | none => .error (.invalidTileIndex filepath r.1 r.2.1 r.2.2.1))

/-- The keys of an association-list table. -/
def tblKeys {κ υ : Type} (l : List (κ × υ)) : List κ := l.map Prod.fst

/-- The stored byte contents of the `images` table. -/
def contentsOf (i : List (Hash × Bytes)) : List Bytes := i.map Prod.snd

/-- Well-formedness of the `images` table: keys are unique (the table is
keyed by `tile_id`) and every row's key is the hash of its content (every
row was written as `(md5_hex(data), data)`). -/
def ImagesOk (hash : Bytes → Hash) (i : List (Hash × Bytes)) : Prop :=
  (tblKeys i).Nodup ∧ ∀ p ∈ i, p.1 = hash p.2

/-- Number of `images` rows holding the given byte content. -/
def countContent (i : List (Hash × Bytes)) (c : Bytes) : Nat :=
  i.countP (fun p => decide (p.2 = c))

theorem invert_y_value_eq_some {z y : Nat} (h : y ≤ 2 ^ z - 1) :
    invert_y_value z y = some (2 ^ z - 1 - y) := if_pos h

theorem alookup_eq_none {κ υ : Type} [DecidableEq κ] (l : List (κ × υ)) (k : κ) :
    alookup l k = none ↔ k ∉ tblKeys l := by
  induction l with
  | nil => simp [alookup, tblKeys]
  | cons p t ih =>
    obtain ⟨k', v⟩ := p
    by_cases h : k = k'
    · subst h
      simp [alookup, tblKeys]
    · simp [alookup, tblKeys, h, ih]

theorem alookup_mem {κ υ : Type} [DecidableEq κ] {l : List (κ × υ)} {k : κ} {v : υ}
    (h : alookup l k = some v) : (k, v) ∈ l := by
  induction l with
  | nil => simp [alookup] at h
  | cons p t ih =>
    obtain ⟨k', v'⟩ := p
    by_cases hk : k = k'
    · subst hk
      simp [alookup] at h
      subst h
      exact List.mem_cons_self _ _
    · simp [alookup, hk] at h
      exact List.mem_cons_of_mem _ (ih h)

/-- C3: `insert_tiles` is atomic: for every batch and container variant, either
the whole transaction commits — the observable state is the full result of the
in-transaction work and no error is reported — or some statement failed, the
transaction rolls back, and the observable state is exactly the state before
the call. -/
theorem insert_tiles_atomic (hash : Bytes → Hash) (mbt : MbtType)
    (dup : CopyDuplicateMode) (db : DbState) (batch : List Record) :
    (∃ db', insert_tiles_tx hash mbt dup db batch = .ok db' ∧
      insert_tiles hash mbt dup db batch = (db', none)) ∨
    (∃ e, insert_tiles_tx hash mbt dup db batch = .error e ∧
      insert_tiles hash mbt dup db batch = (db, some e)) := by
  cases h : insert_tiles_tx hash mbt dup db batch with
  | ok db' => exact .inl ⟨db', rfl, by simp [insert_tiles, h]⟩
  | error e => exact .inr ⟨e, rfl, by simp [insert_tiles, h]⟩

/-- C9: the `hash_view` flag of `Normalized` changes only the read path, never
the write path: `get_insert_sql` returns identical statements for both flag
values, and on identical stored content the two `Normalized` read paths of
`get_tile_and_hash` return the same `(bytes, hash)` result. -/
theorem hash_view_read_write_agnostic (dup : CopyDuplicateMode)
    (m : List (TileKey × Hash)) (i : List (Hash × Bytes)) (z x y : Nat) :
    get_insert_sql (.Normalized true) dup = get_insert_sql (.Normalized false) dup ∧
    get_tile_and_hash (.Normalized true) (.normalized m i) z x y =
      get_tile_and_hash (.Normalized false) (.normalized m i) z x y := by
  refine ⟨rfl, ?_⟩
  unfold get_tile_and_hash
  cases invert_y_value z y with
  | none => rfl
  | some ty =>
    show Except.ok (tiles_with_hash_view m i (z, x, ty)) =
      Except.ok (map_join_images m i (z, x, ty))
    unfold tiles_with_hash_view map_join_images
    cases alookup m (z, x, ty) <;> rfl

/-- C4: for a `Flat` container, `get_tile_and_hash` on an existing tile returns
the stored tile bytes paired with `hash = None` (the SQL selects
`NULL as tile_hash`). -/
theorem get_tile_and_hash_flat_hash_none (t : List (TileKey × Option Bytes))
    (z x y : Nat) (d : Option Bytes) (hy : y ≤ 2 ^ z - 1)
    (hrow : alookup t (z, x, 2 ^ z - 1 - y) = some d) :
    get_tile_and_hash .Flat (.flat t) z x y = .ok (some (d, none)) := by
  simp [get_tile_and_hash, invert_y_value_eq_some hy, hrow]

/-- Witness for C4 at a concrete container and coordinate. -/
theorem get_tile_and_hash_flat_hash_none_witness :
    get_tile_and_hash .Flat (.flat [((1, 0, 1), some [5])]) 1 0 0 =
      .ok (some (some [5], none)) :=
  get_tile_and_hash_flat_hash_none [((1, 0, 1), some [5])] 1 0 0 (some [5])
    (by decide) (by decide)

/-- C10: for a valid row value, `get_tile` returns `Ok(None)` in both absence
cases — no stored row matches `(z, x, inverted y)`, or a matching row exists
with NULL `tile_data` — and returns `Ok(Some(bytes))` exactly when a matching
row with non-NULL `tile_data` exists. -/
theorem get_tile_absence_spec (db : DbState) (z x y : Nat) (hy : y ≤ 2 ^ z - 1) :
    (get_tile db z x y = .ok none ↔
      tilesData db (z, x, 2 ^ z - 1 - y) = none ∨
      tilesData db (z, x, 2 ^ z - 1 - y) = some none) ∧
    (∀ b : Bytes, get_tile db z x y = .ok (some b) ↔
      tilesData db (z, x, 2 ^ z - 1 - y) = some (some b)) := by
  unfold get_tile
  rw [invert_y_value_eq_some hy]
  cases h : tilesData db (z, x, 2 ^ z - 1 - y) with
  | none => simp [h]
  | some o => cases o <;> simp [h]

/-- Witness for C10: a container with one NULL-data row and one data row. -/
theorem get_tile_absence_spec_witness :
    (get_tile (.flat [((0, 0, 0), none)]) 0 0 0 = .ok none ↔
      tilesData (.flat [((0, 0, 0), none)]) (0, 0, 0) = none ∨
      tilesData (.flat [((0, 0, 0), none)]) (0, 0, 0) = some none) ∧
    (∀ b : Bytes, get_tile (.flat [((0, 0, 0), none)]) 0 0 0 = .ok (some b) ↔
      tilesData (.flat [((0, 0, 0), none)]) (0, 0, 0) = some (some b)) :=
  get_tile_absence_spec (.flat [((0, 0, 0), none)]) 0 0 0 (by decide)

/-- C5 counterexample: `get_tile` and `insert_tiles` pass the caller's row
value to the inversion without validating it against the zoom level: at
`z = 0`, `y = 1` the row exceeds `2^0 - 1 = 0` and the inversion underflows
(panics), so the engine does invert an unchecked row value. -/
theorem get_tile_unvalidated_row_panics :
    get_tile (.flat []) 0 0 1 = .error .panicOverflow ∧
    insert_tiles id .Flat .Ignore (.flat []) [(0, 0, 1, [0])] =
      (.flat [], some .panicOverflow) := by
  decide

/-- C5 (amended): only `parse_tile_index` — the path fed by untrusted storage
rows — validates the row value against the zoom level before applying the
inversion, so there the inversion never underflows; `get_tile`,
`get_tile_and_hash` and `insert_tiles` apply the inversion to the caller's
row value without prior validation, and for every zoom an out-of-range row
makes `get_tile` and `get_tile_and_hash` fail with the underflow panic and
makes `insert_tiles` fail and roll back for every variant and mode. -/
theorem parse_tile_index_validates_before_invert (z x y : Option Int)
    (zn xn yn : Nat) (hz : z.bind int_to_u8 = some zn)
    (hx : x.bind int_to_u32 = some xn) (hy : y.bind int_to_u32 = some yn) :
    (xn ≤ 2 ^ zn - 1 → yn ≤ 2 ^ zn - 1 →
      invert_y_value zn yn = some (2 ^ zn - 1 - yn) ∧
      parse_tile_index z x y = some ⟨zn, xn, 2 ^ zn - 1 - yn⟩) ∧
    (¬(xn ≤ 2 ^ zn - 1 ∧ yn ≤ 2 ^ zn - 1) → parse_tile_index z x y = none) ∧
    (∀ (db : DbState) (mbt : MbtType) (zq xq yq : Nat), 2 ^ zq - 1 < yq →
      get_tile db zq xq yq = .error .panicOverflow ∧
      get_tile_and_hash mbt db zq xq yq = .error .panicOverflow) ∧
    (∀ (hash : Bytes → Hash) (mbt : MbtType) (dup : CopyDuplicateMode)
      (db : DbState) (zq xq yq : Nat) (d : Bytes) (rest : List Record),
      2 ^ zq - 1 < yq →
      ∃ e, insert_tiles hash mbt dup db ((zq, xq, yq, d) :: rest) = (db, some e)) := by
  refine ⟨?_, ?_, ?_, ?_⟩
  · intro hxv hyv
    refine ⟨invert_y_value_eq_some hyv, ?_⟩
    simp [parse_tile_index, hz, hx, hy, is_possible_on_zoom_level, hxv, hyv,
      invert_y_value_eq_some hyv]
  · intro hnv
    have hcond : is_possible_on_zoom_level zn xn yn = false := by
      simp only [is_possible_on_zoom_level, Bool.and_eq_false_iff,
        decide_eq_false_iff_not]
      tauto
    simp [parse_tile_index, hz, hx, hy, hcond]
  · intro db mbt zq xq yq hyq
    have hinv : invert_y_value zq yq = none := by
      unfold invert_y_value
      rw [if_neg]
      omega
    exact ⟨by simp [get_tile, hinv], by simp [get_tile_and_hash, hinv]⟩
  · intro hash mbt dup db zq xq yq d rest hyq
    have hinv : invert_y_value zq yq = none := by
      unfold invert_y_value
      rw [if_neg]
      omega
    have hidx : ∀ db0, runIndexLoop hash mbt dup ((zq, xq, yq, d) :: rest) db0
        = .error .panicOverflow := by
      intro db0
      simp [runIndexLoop, bound_index_params, hinv]
    cases mbt with
    | Flat =>
      exact ⟨.panicOverflow, by simp [insert_tiles, insert_tiles_tx, hidx]⟩
    | FlatWithHash =>
      exact ⟨.panicOverflow, by simp [insert_tiles, insert_tiles_tx, hidx]⟩
    | Normalized hv =>
      cases db with
      | flat t =>
        exact ⟨.noSuchTable, by simp [insert_tiles, insert_tiles_tx]⟩
      | flatWithHash t =>
        exact ⟨.noSuchTable, by simp [insert_tiles, insert_tiles_tx]⟩
      | normalized m i =>
        cases hc : runContentLoop hash dup ((zq, xq, yq, d) :: rest) i with
        | ok i' =>
          exact ⟨.panicOverflow,
            by simp [insert_tiles, insert_tiles_tx, hc, hidx]⟩
        | error e =>
          exact ⟨e, by simp [insert_tiles, insert_tiles_tx, hc]⟩

/-- Witness for C5 (amended) at concrete raw row values, and at a concrete
container, coordinate and batch for the unvalidated read/write paths. -/
theorem parse_tile_index_validates_before_invert_witness :
    (invert_y_value 2 1 = some 2 ∧
      parse_tile_index (some 2) (some 1) (some 1) = some ⟨2, 1, 2⟩) ∧
    (get_tile (.flat []) 0 0 1 = .error .panicOverflow ∧
      get_tile_and_hash .Flat (.flat []) 0 0 1 = .error .panicOverflow) ∧
    (∃ e, insert_tiles id (.Normalized false) .Ignore (.normalized [] [])
      [(0, 0, 1, [4])] = (.normalized [] [], some e)) :=
  ⟨(parse_tile_index_validates_before_invert (some 2) (some 1) (some 1) 2 1 1
      (by decide) (by decide) (by decide)).1 (by decide) (by decide),
   (parse_tile_index_validates_before_invert (some 2) (some 1) (some 1) 2 1 1
      (by decide) (by decide) (by decide)).2.2.1 (.flat []) .Flat 0 0 1 (by decide),
   (parse_tile_index_validates_before_invert (some 2) (some 1) (some 1) 2 1 1
      (by decide) (by decide) (by decide)).2.2.2 id (.Normalized false) .Ignore
      (.normalized [] []) 0 0 1 [4] [] (by decide)⟩

/-- C8: in `insert_tiles`, the row value bound to the index write statement for
a record `(z, x, y, d)` is exactly the single TMS conversion `(2^z - 1) - y`
of the caller's XYZ row, computed immediately before binding; the executed
index statement for that record receives exactly that converted value. -/
theorem insert_tiles_binds_single_inversion (z x y : Nat) (d : Bytes)
    (hy : y ≤ 2 ^ z - 1) :
    bound_index_params (z, x, y, d) = some (z, x, 2 ^ z - 1 - y, d) ∧
    ∀ (hash : Bytes → Hash) (mbt : MbtType) (dup : CopyDuplicateMode)
      (db : DbState) (rest : List Record),
      runIndexLoop hash mbt dup ((z, x, y, d) :: rest) db =
        match execIndexInsert hash mbt dup db z x (2 ^ z - 1 - y) d with
        | .ok db' => runIndexLoop hash mbt dup rest db'
        | .error e => .error e := by
  constructor
  · simp [bound_index_params, invert_y_value_eq_some hy]
  · intro hash mbt dup db rest
    simp [runIndexLoop, bound_index_params, invert_y_value_eq_some hy]

/-- Witness for C8 at a concrete record. -/
theorem insert_tiles_binds_single_inversion_witness :
    bound_index_params (1, 0, 0, [9]) = some (1, 0, 1, [9]) :=
  (insert_tiles_binds_single_inversion 1 0 0 [9] (by decide)).1

/-- C6: `parse_tile_index` returns `none` exactly when a field is absent, the
zoom does not fit in `u8`, the column or row does not fit in `u32`, or the
converted column or row is not representable on the zoom level; it is a total
function (never panics) and otherwise returns `some` coordinate. -/
theorem parse_tile_index_none_iff (z x y : Option Int) :
    parse_tile_index z x y = none ↔
      z = none ∨ x = none ∨ y = none ∨
      (∃ n, z = some n ∧ ¬(0 ≤ n ∧ n < 256)) ∨
      (∃ n, x = some n ∧ ¬(0 ≤ n ∧ n < 4294967296)) ∨
      (∃ n, y = some n ∧ ¬(0 ≤ n ∧ n < 4294967296)) ∨
      (∃ zi xi yi : Int, z = some zi ∧ x = some xi ∧ y = some yi ∧
        (2 ^ zi.toNat ≤ xi.toNat ∨ 2 ^ zi.toNat ≤ yi.toNat)) := by
  rcases z with _ | zi
  · simp [parse_tile_index]
  rcases x with _ | xi
  · have hn : parse_tile_index (some zi) none y = none := by
      unfold parse_tile_index
      cases int_to_u8 zi <;> simp
    simp [hn]
  rcases y with _ | yi
  · have hn : parse_tile_index (some zi) (some xi) none = none := by
      unfold parse_tile_index
      cases int_to_u8 zi <;> cases int_to_u32 xi <;> simp
    simp [hn]
  by_cases h8 : 0 ≤ zi ∧ zi < 256
  case neg =>
    have hn : parse_tile_index (some zi) (some xi) (some yi) = none := by
      simp [parse_tile_index, int_to_u8, h8]
    exact iff_of_true hn (.inr (.inr (.inr (.inl ⟨zi, rfl, h8⟩))))
  by_cases h32x : 0 ≤ xi ∧ xi < 4294967296
  case neg =>
    have hn : parse_tile_index (some zi) (some xi) (some yi) = none := by
      simp [parse_tile_index, int_to_u8, int_to_u32, h8, h32x]
    exact iff_of_true hn (.inr (.inr (.inr (.inr (.inl ⟨xi, rfl, h32x⟩)))))
  by_cases h32y : 0 ≤ yi ∧ yi < 4294967296
  case neg =>
    have hn : parse_tile_index (some zi) (some xi) (some yi) = none := by
      simp [parse_tile_index, int_to_u8, int_to_u32, h8, h32x, h32y]
    exact iff_of_true hn (.inr (.inr (.inr (.inr (.inr (.inl ⟨yi, rfl, h32y⟩))))))
  have hp : 0 < 2 ^ zi.toNat := Nat.two_pow_pos _
  by_cases hrange : 2 ^ zi.toNat ≤ xi.toNat ∨ 2 ^ zi.toNat ≤ yi.toNat
  · have hposs : is_possible_on_zoom_level zi.toNat xi.toNat yi.toNat = false := by
      simp only [is_possible_on_zoom_level, Bool.and_eq_false_iff,
        decide_eq_false_iff_not]
      omega
    have hn : parse_tile_index (some zi) (some xi) (some yi) = none := by
      simp [parse_tile_index, int_to_u8, int_to_u32, h8, h32x, h32y, hposs]
    exact iff_of_true hn
      (.inr (.inr (.inr (.inr (.inr (.inr ⟨zi, xi, yi, rfl, rfl, rfl, hrange⟩))))))
  · have hposs : is_possible_on_zoom_level zi.toNat xi.toNat yi.toNat = true := by
      simp only [is_possible_on_zoom_level, Bool.and_eq_true, decide_eq_true_eq]
      omega
    have hyv : yi.toNat ≤ 2 ^ zi.toNat - 1 := by omega
    have hn : parse_tile_index (some zi) (some xi) (some yi) =
        some ⟨zi.toNat, xi.toNat, 2 ^ zi.toNat - 1 - yi.toNat⟩ := by
      simp [parse_tile_index, int_to_u8, int_to_u32, h8, h32x, h32y, hposs,
        invert_y_value_eq_some hyv]
    refine iff_of_false (by simp [hn]) ?_
    rintro (h | h | h | ⟨n, hn', hf⟩ | ⟨n, hn', hf⟩ | ⟨n, hn', hf⟩ |
      ⟨zi', xi', yi', hz', hx', hy', hcond⟩)
    · exact Option.noConfusion h
    · exact Option.noConfusion h
    · exact Option.noConfusion h
    · obtain rfl := Option.some_inj.mp hn'
      exact hf h8
    · obtain rfl := Option.some_inj.mp hn'
      exact hf h32x
    · obtain rfl := Option.some_inj.mp hn'
      exact hf h32y
    · obtain rfl := Option.some_inj.mp hz'
      obtain rfl := Option.some_inj.mp hx'
      obtain rfl := Option.some_inj.mp hy'
      exact hrange hcond

/-- C7: in the sequences produced by `stream_coords` and `stream_tiles`, every
stored row that fails coordinate parsing yields an `InvalidTileIndex` error
item at its own position, every row that parses yields its item at its own
position, and the output has one item per input row — a failing row neither
terminates the stream nor is silently skipped. -/
theorem stream_items_positional (fp : String) (crows : List CoordRow)
    (trows : List TileRow) (i j : Nat) (hi : i < crows.length)
    (hj : j < trows.length) :
    (stream_coords fp crows).length = crows.length ∧
    (stream_tiles fp trows).length = trows.length ∧
    (parse_tile_index (crows.get ⟨i, hi⟩).1 (crows.get ⟨i, hi⟩).2.1
        (crows.get ⟨i, hi⟩).2.2 = none →
      (stream_coords fp crows).get ⟨i, by simpa [stream_coords] using hi⟩ =
        .error (.invalidTileIndex fp (crows.get ⟨i, hi⟩).1
          (crows.get ⟨i, hi⟩).2.1 (crows.get ⟨i, hi⟩).2.2)) ∧
    (∀ c, parse_tile_index (crows.get ⟨i, hi⟩).1 (crows.get ⟨i, hi⟩).2.1
        (crows.get ⟨i, hi⟩).2.2 = some c →
      (stream_coords fp crows).get ⟨i, by simpa [stream_coords] using hi⟩ = .ok c) ∧
    (parse_tile_index (trows.get ⟨j, hj⟩).1 (trows.get ⟨j, hj⟩).2.1
        (trows.get ⟨j, hj⟩).2.2.1 = none →
      (stream_tiles fp trows).get ⟨j, by simpa [stream_tiles] using hj⟩ =
        .error (.invalidTileIndex fp (trows.get ⟨j, hj⟩).1
          (trows.get ⟨j, hj⟩).2.1 (trows.get ⟨j, hj⟩).2.2.1)) ∧
    (∀ c, parse_tile_index (trows.get ⟨j, hj⟩).1 (trows.get ⟨j, hj⟩).2.1
        (trows.get ⟨j, hj⟩).2.2.1 = some c →
      (stream_tiles fp trows).get ⟨j, by simpa [stream_tiles] using hj⟩ =
        .ok (c, (trows.get ⟨j, hj⟩).2.2.2)) := by
  refine ⟨by simp [stream_coords], by simp [stream_tiles], ?_, ?_, ?_, ?_⟩
  · intro hparse
    simp only [stream_coords, List.get_eq_getElem, List.getElem_map]
    have hparse' : parse_tile_index crows[i].1 crows[i].2.1 crows[i].2.2 = none :=
      hparse
    rw [hparse']
  · intro c hparse
    simp only [stream_coords, List.get_eq_getElem, List.getElem_map]
    have hparse' : parse_tile_index crows[i].1 crows[i].2.1 crows[i].2.2 = some c :=
      hparse
    rw [hparse']
  · intro hparse
    simp only [stream_tiles, List.get_eq_getElem, List.getElem_map]
    have hparse' :
        parse_tile_index trows[j].1 trows[j].2.1 trows[j].2.2.1 = none := hparse
    rw [hparse']
  · intro c hparse
    simp only [stream_tiles, List.get_eq_getElem, List.getElem_map]
    have hparse' :
        parse_tile_index trows[j].1 trows[j].2.1 trows[j].2.2.1 = some c := hparse
    rw [hparse']

theorem mem_contents_iff_key_mem (hash : Bytes → Hash)
    (hinj : Function.Injective hash) {i : List (Hash × Bytes)}
    (hkv : ∀ p ∈ i, p.1 = hash p.2) (c : Bytes) :
    c ∈ contentsOf i ↔ hash c ∈ tblKeys i := by
  unfold contentsOf tblKeys
  simp only [List.mem_map]
  constructor
  · rintro ⟨p, hp, rfl⟩
    exact ⟨p, hp, hkv p hp⟩
  · rintro ⟨p, hp, hk⟩
    have hpc : hash p.2 = hash c := by rw [← hkv p hp, hk]
    exact ⟨p, hp, hinj hpc⟩

theorem countContent_eq (hash : Bytes → Hash) (hinj : Function.Injective hash)
    (i : List (Hash × Bytes)) (c : Bytes) :
    ImagesOk hash i → countContent i c = if c ∈ contentsOf i then 1 else 0 := by
  induction i with
  | nil => intro _; simp [countContent, contentsOf]
  | cons p t ih =>
    rintro ⟨hnd, hkv⟩
    obtain ⟨k, v⟩ := p
    have hk : k = hash v := hkv (k, v) (List.mem_cons_self _ _)
    simp only [tblKeys, List.map_cons, List.nodup_cons] at hnd
    have hkv' : ∀ q ∈ t, q.1 = hash q.2 :=
      fun q hq => hkv q (List.mem_cons_of_mem _ hq)
    have ihc := ih ⟨hnd.2, hkv'⟩
    by_cases hvc : v = c
    · subst hvc
      have hnotin : v ∉ contentsOf t := by
        intro hmem
        exact hnd.1 (by
          rw [hk]
          exact (mem_contents_iff_key_mem hash hinj hkv' v).mp hmem)
      simp [countContent, contentsOf, List.countP_cons, countContent] at ihc ⊢
      intro a b hab hbv
      subst hbv
      exact hnotin (List.mem_map_of_mem Prod.snd hab)
    · have hcv : ¬c = v := fun h => hvc h.symm
      simp [countContent, contentsOf, List.countP_cons, countContent] at ihc ⊢
      rw [if_neg hvc, ihc, Nat.add_zero]
      rcases Decidable.em (c ∈ List.map Prod.snd t) with hmem | hmem
      · rw [if_pos hmem, if_pos (List.mem_cons_of_mem _ hmem)]
      · rw [if_neg hmem, if_neg ?hcond]
        case hcond =>
          intro hx
          rcases List.mem_cons.mp hx with h | h
          · exact hcv h
          · exact hmem h

theorem areplace_self (hash : Bytes → Hash) (hinj : Function.Injective hash)
    (i : List (Hash × Bytes)) (d : Bytes) :
    (∀ p ∈ i, p.1 = hash p.2) → areplace i (hash d) d = i := by
  induction i with
  | nil => intro _; rfl
  | cons p t ih =>
    intro hkv
    obtain ⟨k, v⟩ := p
    by_cases hk : hash d = k
    · have hv : k = hash v := hkv (k, v) (List.mem_cons_self _ _)
      have hvd : v = d := hinj (by rw [← hv, hk])
      simp [areplace, hk, hvd]
    · simp only [areplace, if_neg hk]
      rw [ih (fun q hq => hkv q (List.mem_cons_of_mem _ hq))]

theorem execContentInsert_step (hash : Bytes → Hash)
    (hinj : Function.Injective hash) (dup : CopyDuplicateMode)
    (hdup : dup ≠ .Abort) (i : List (Hash × Bytes)) (d : Bytes)
    (hok : ImagesOk hash i) :
    ∃ i', execContentInsert hash dup i d = .ok i' ∧ ImagesOk hash i' ∧
      ∀ c, c ∈ contentsOf i' ↔ c ∈ contentsOf i ∨ c = d := by
  cases hl : alookup i (hash d) with
  | none =>
    refine ⟨i ++ [(hash d, d)], by simp [execContentInsert, sqlInsert, hl],
      ⟨?_, ?_⟩, fun c => ?_⟩
    · unfold tblKeys
      rw [List.map_append]
      rw [List.nodup_append]
      refine ⟨hok.1, List.nodup_singleton _, fun a ha hb => ?_⟩
      simp only [List.map_cons, List.map_nil, List.mem_singleton] at hb
      subst hb
      exact (alookup_eq_none i (hash d)).mp hl ha
    · intro p hp
      rcases List.mem_append.mp hp with h | h
      · exact hok.2 p h
      · simp only [List.mem_singleton] at h
        subst h
        rfl
    · simp [contentsOf]
  | some v =>
    have hmem : hash d ∈ tblKeys i :=
      List.mem_map_of_mem Prod.fst (alookup_mem hl)
    have hdin : d ∈ contentsOf i :=
      (mem_contents_iff_key_mem hash hinj hok.2 d).mpr hmem
    cases dup with
    | Abort => exact absurd rfl hdup
    | Ignore =>
      refine ⟨i, by simp [execContentInsert, sqlInsert, hl], hok, fun c => ?_⟩
      constructor
      · exact Or.inl
      · rintro (h | rfl)
        · exact h
        · exact hdin
    | Override =>
      refine ⟨i, ?_, hok, fun c => ?_⟩
      · simp only [execContentInsert, sqlInsert, hl]
        rw [areplace_self hash hinj i d hok.2]
      · constructor
        · exact Or.inl
        · rintro (h | rfl)
          · exact h
          · exact hdin

theorem runContentLoop_ok (hash : Bytes → Hash) (hinj : Function.Injective hash)
    (dup : CopyDuplicateMode) (hdup : dup ≠ .Abort) :
    ∀ (batch : List Record) (i : List (Hash × Bytes)), ImagesOk hash i →
      ∃ i', runContentLoop hash dup batch i = .ok i' ∧ ImagesOk hash i' ∧
        ∀ c, c ∈ contentsOf i' ↔
          c ∈ contentsOf i ∨ c ∈ batch.map (fun r => r.2.2.2) := by
  intro batch
  induction batch with
  | nil =>
    intro i hok
    exact ⟨i, rfl, hok, by simp⟩
  | cons r rest ih =>
    intro i hok
    obtain ⟨z, x, y, d⟩ := r
    obtain ⟨i1, hstep, hok1, hmem1⟩ := execContentInsert_step hash hinj dup hdup i d hok
    obtain ⟨i', hloop, hok', hmem'⟩ := ih i1 hok1
    refine ⟨i', ?_, hok', fun c => ?_⟩
    · simp [runContentLoop, hstep, hloop]
    · rw [hmem' c]
      simp only [hmem1 c, List.map_cons, List.mem_cons]
      tauto

theorem runIndexLoop_normalized_ok (hash : Bytes → Hash)
    (dup : CopyDuplicateMode) (hdup : dup ≠ .Abort) (hv : Bool) :
    ∀ (batch : List Record), (∀ r ∈ batch, r.2.2.1 ≤ 2 ^ r.1 - 1) →
      ∀ (m : List (TileKey × Hash)) (i : List (Hash × Bytes)),
      ∃ m', runIndexLoop hash (.Normalized hv) dup batch (.normalized m i)
        = .ok (.normalized m' i) := by
  intro batch
  induction batch with
  | nil =>
    intro _ m i
    exact ⟨m, rfl⟩
  | cons r rest ih =>
    intro hvalid m i
    obtain ⟨z, x, y, d⟩ := r
    have hy : y ≤ 2 ^ z - 1 := hvalid (z, x, y, d) (List.mem_cons_self _ _)
    have hstep : ∃ m1, execIndexInsert hash (.Normalized hv) dup
        (.normalized m i) z x (2 ^ z - 1 - y) d = .ok (.normalized m1 i) := by
      cases hl : alookup m (z, x, 2 ^ z - 1 - y) with
      | none =>
        exact ⟨m ++ [((z, x, 2 ^ z - 1 - y), hash d)],
          by simp [execIndexInsert, sqlInsert, hl, Except.map]⟩
      | some v =>
        cases dup with
        | Abort => exact absurd rfl hdup
        | Ignore => exact ⟨m, by simp [execIndexInsert, sqlInsert, hl, Except.map]⟩
        | Override =>
          exact ⟨areplace m (z, x, 2 ^ z - 1 - y) (hash d),
            by simp [execIndexInsert, sqlInsert, hl, Except.map]⟩
    obtain ⟨m1, hstep⟩ := hstep
    obtain ⟨m', hloop⟩ := ih (fun q hq => hvalid q (List.mem_cons_of_mem _ hq)) m1 i
    exact ⟨m', by simp [runIndexLoop, bound_index_params,
      invert_y_value_eq_some hy, hstep, hloop]⟩

/-- C1 counterexample: under `Abort` mode, inserting a tile whose byte content
already exists in the `images` table makes the whole batch fail with a
unique-constraint violation — the content-table insert is `INSERT OR ABORT`,
not "insert, ignore if present", so the claim fails for `duplicate_mode =
Abort`.  Here content `[7]` is already stored (at coordinate `(0,0,0)`) and
the batch writes the same content at the fresh coordinate `(1,0,0)`. -/
theorem normalized_abort_duplicate_content_fails :
    insert_tiles id (.Normalized false) .Abort
      (.normalized [((0, 0, 0), [7])] [([7], [7])]) [(1, 0, 0, [7])] =
    (.normalized [((0, 0, 0), [7])] [([7], [7])], some .uniqueViolation) := by
  decide

/-- C1 (amended): for `Ignore` and `Override` duplicate modes (not `Abort`,
where a duplicate content aborts the batch), and every batch of
coordinate-valid records, inserting into a well-formed `Normalized` container
never fails, inserting content that already exists creates no second
content-table row, and after `insert_tiles` the `images` table holds exactly
one row per distinct byte content (stored or inserted). -/
theorem normalized_content_dedup (hash : Bytes → Hash)
    (hinj : Function.Injective hash) (hv : Bool) (dup : CopyDuplicateMode)
    (m : List (TileKey × Hash)) (i : List (Hash × Bytes)) (batch : List Record)
    (hdup : dup ≠ .Abort) (hok : ImagesOk hash i)
    (hvalid : ∀ r ∈ batch, r.2.2.1 ≤ 2 ^ r.1 - 1) :
    ∃ m' i',
      insert_tiles hash (.Normalized hv) dup (.normalized m i) batch
        = (.normalized m' i', none) ∧
      ImagesOk hash i' ∧
      ∀ c : Bytes, countContent i' c =
        if c ∈ contentsOf i ∨ c ∈ batch.map (fun r => r.2.2.2) then 1 else 0 := by
  obtain ⟨i', hloop, hok', hmem'⟩ := runContentLoop_ok hash hinj dup hdup batch i hok
  obtain ⟨m', hidx⟩ := runIndexLoop_normalized_ok hash dup hdup hv batch hvalid m i'
  refine ⟨m', i', ?_, hok', fun c => ?_⟩
  · simp [insert_tiles, insert_tiles_tx, hloop, hidx]
  · rw [countContent_eq hash hinj i' c hok']
    by_cases hc : c ∈ contentsOf i ∨ c ∈ batch.map (fun r => r.2.2.2)
    · rw [if_pos ((hmem' c).mpr hc), if_pos hc]
    · rw [if_neg (fun h => hc ((hmem' c).mp h)), if_neg hc]

/-- Witness for C1 (amended): content `[7]` already stored, re-inserted at a
fresh coordinate under `Ignore`. -/
theorem normalized_content_dedup_witness :
    ∃ m' i',
      insert_tiles id (.Normalized false) .Ignore
        (.normalized [((0, 0, 0), [7])] [([7], [7])]) [(1, 0, 0, [7])]
        = (.normalized m' i', none) ∧
      ImagesOk id i' ∧
      ∀ c : Bytes, countContent i' c =
        if c ∈ contentsOf [([7], [7])] ∨
            c ∈ [((1 : Nat), (0 : Nat), (0 : Nat), ([7] : Bytes))].map
              (fun r => r.2.2.2) then 1 else 0 :=
  normalized_content_dedup id (fun a b h => h) false .Ignore
    [((0, 0, 0), [7])] [([7], [7])] [(1, 0, 0, [7])]
    (by decide) (by constructor <;> decide) (by decide)

/-- C2: inserting the same coordinate twice with different content, for every
container variant: the first batch commits under every duplicate mode and
yields the same state `db1`; re-inserting under `Ignore` keeps the first
content, under `Override` the second content replaces the first, and under
`Abort` the second transaction fails and rolls back, so the container retains
exactly the first batch's content. -/
theorem insert_twice_duplicate_modes (hash : Bytes → Hash)
    (hinj : Function.Injective hash) (mbt : MbtType) (z x y : Nat)
    (c1 c2 : Bytes) (hy : y ≤ 2 ^ z - 1) (hne : c1 ≠ c2) :
    ∃ db1,
      (∀ d, insert_tiles hash mbt d (emptyDb mbt) [(z, x, y, c1)] = (db1, none)) ∧
      get_tile db1 z x y = .ok (some c1) ∧
      (∃ db2, insert_tiles hash mbt .Ignore db1 [(z, x, y, c2)] = (db2, none) ∧
        get_tile db2 z x y = .ok (some c1)) ∧
      (∃ db2, insert_tiles hash mbt .Override db1 [(z, x, y, c2)] = (db2, none) ∧
        get_tile db2 z x y = .ok (some c2)) ∧
      (∃ e, insert_tiles hash mbt .Abort db1 [(z, x, y, c2)] = (db1, some e)) := by
  have hcc' : hash c2 ≠ hash c1 := fun h => hne (hinj h.symm)
  have hinv := invert_y_value_eq_some hy
  cases mbt with
  | Flat =>
    refine ⟨.flat [((z, x, 2 ^ z - 1 - y), some c1)], fun d => ?_, ?_,
      ⟨.flat [((z, x, 2 ^ z - 1 - y), some c1)], ?_, ?_⟩,
      ⟨.flat [((z, x, 2 ^ z - 1 - y), some c2)], ?_, ?_⟩,
      ⟨.uniqueViolation, ?_⟩⟩ <;>
      simp [insert_tiles, insert_tiles_tx, runIndexLoop, bound_index_params, hinv,
        execIndexInsert, sqlInsert, alookup, areplace, emptyDb, get_tile, tilesData,
        Except.map]
  | FlatWithHash =>
    refine ⟨.flatWithHash [((z, x, 2 ^ z - 1 - y), (some c1, hash c1))], fun d => ?_,
      ?_, ⟨.flatWithHash [((z, x, 2 ^ z - 1 - y), (some c1, hash c1))], ?_, ?_⟩,
      ⟨.flatWithHash [((z, x, 2 ^ z - 1 - y), (some c2, hash c2))], ?_, ?_⟩,
      ⟨.uniqueViolation, ?_⟩⟩ <;>
      simp [insert_tiles, insert_tiles_tx, runIndexLoop, bound_index_params, hinv,
        execIndexInsert, sqlInsert, alookup, areplace, emptyDb, get_tile, tilesData,
        Except.map]
  | Normalized hv =>
    refine ⟨.normalized [((z, x, 2 ^ z - 1 - y), hash c1)] [(hash c1, c1)],
      fun d => ?_, ?_,
      ⟨.normalized [((z, x, 2 ^ z - 1 - y), hash c1)]
        [(hash c1, c1), (hash c2, c2)], ?_, ?_⟩,
      ⟨.normalized [((z, x, 2 ^ z - 1 - y), hash c2)]
        [(hash c1, c1), (hash c2, c2)], ?_, ?_⟩,
      ⟨.uniqueViolation, ?_⟩⟩ <;>
      simp [insert_tiles, insert_tiles_tx, runContentLoop, execContentInsert,
        runIndexLoop, bound_index_params, hinv, execIndexInsert, sqlInsert, alookup,
        areplace, emptyDb, get_tile, tilesData, hcc', Except.map]

/-- Witness for C2 at a concrete variant, coordinate and pair of contents. -/
theorem insert_twice_duplicate_modes_witness :
    ∃ db1,
      (∀ d, insert_tiles id .Flat d (emptyDb .Flat) [(1, 0, 0, [3])] = (db1, none)) ∧
      get_tile db1 1 0 0 = .ok (some [3]) ∧
      (∃ db2, insert_tiles id .Flat .Ignore db1 [(1, 0, 0, [4])] = (db2, none) ∧
        get_tile db2 1 0 0 = .ok (some [3])) ∧
      (∃ db2, insert_tiles id .Flat .Override db1 [(1, 0, 0, [4])] = (db2, none) ∧
        get_tile db2 1 0 0 = .ok (some [4])) ∧
      (∃ e, insert_tiles id .Flat .Abort db1 [(1, 0, 0, [4])] = (db1, some e)) :=
  insert_twice_duplicate_modes id (fun a b h => h) .Flat 1 0 0 [3] [4]
    (by decide) (by decide)

/-- Witness for C7: one failing row between two valid rows, in both streams. -/
theorem stream_items_positional_witness :
    (stream_coords "f" [(some 0, some 0, some 0), (some 0, some 0, some 1),
        (some 1, some 1, some 0)]).length = 3 ∧
    (stream_tiles "f" [(some 0, some 0, some 1, some [3])]).length = 1 ∧
    (parse_tile_index (some 0) (some 0) (some 1) = none →
      (stream_coords "f" [(some 0, some 0, some 0), (some 0, some 0, some 1),
          (some 1, some 1, some 0)]).get ⟨1, by decide⟩ =
        .error (.invalidTileIndex "f" (some 0) (some 0) (some 1))) := by
  have h := stream_items_positional "f"
    [(some 0, some 0, some 0), (some 0, some 0, some 1), (some 1, some 1, some 0)]
    [(some 0, some 0, some 1, some [3])] 1 0 (by decide) (by decide)
  exact ⟨h.1, h.2.1, fun hp => h.2.2.1 hp⟩

end Mbt
